import Mathlib

/-!
Shallow embedding of `src/python/utils.py` (galario utility module) and
verification of the specification claims about it.

Conventions of the embedding:
* numpy floating-point arrays of reals are modelled by `List ℝ` (1-D) or by
  total functions `ℤ → ℤ → ℝ` / `ℤ → ℤ → ℂ` (2-D images and Fourier grids,
  indexed `(row, col)`); the claims only ever look at in-bounds indices.
* all float arithmetic is modelled exactly over `ℝ` (or over a generic
  linear ordered field `K` with a floor, for the purely rational kernels,
  so that witnesses can be evaluated over `ℚ`).
* `np.floor` / `np.ceil` followed by `np.int` are `Int.floor` / `Int.ceil`;
  Python's `int(n/2)` on a nonnegative integer `n` is `n / 2` on `ℕ`.
* Python functions that can raise (a failed `assert`, an unbound local)
  are modelled with `Option`.
-/

namespace Galario

/-- Module constant `sec2rad = np.pi/180./3600.`: arcsec to radians. -/
noncomputable def sec2rad : ℝ := Real.pi / 180 / 3600

/-- Numpy-style list indexing with an integer index: a negative index wraps
around from the end of the array (in-bounds behaviour only; the claims never
touch an out-of-bounds read). -/
def npGet (I : List ℝ) (k : ℤ) : ℝ :=
  if k < 0 then I.getD (k + I.length).toNat 0 else I.getD k.toNat 0

/-- `radial_profile(Rmin, delta_R, nrad, mode, gauss_width)` from
`utils.py:19-30`.  `gridrad = linspace(Rmin, Rmin + delta_R*(nrad-1), nrad)`,
so `gridrad[i] = Rmin + delta_R*i`.  For `mode='Gauss'` the intensities are
`exp(-(r/delta_R/gauss_width)^2)`; for `mode='Cos-Gauss'` they are
`cos(2*pi*r/(50*delta_R))^2 * exp(-(r/delta_R/80)^2)`.  For any other mode
the local variable `ints` is never assigned and `return ints` raises, which
is modelled by `none`. -/
noncomputable def radial_profile (Rmin delta_R : ℝ) (nrad : ℕ) (mode : String)
    (gauss_width : ℝ) : Option (List ℝ) :=
  let gridrad : List ℝ := (List.range nrad).map (fun i : ℕ => Rmin + delta_R * i)
  if mode = "Gauss" then
    some (gridrad.map (fun r => Real.exp (-(r / delta_R / gauss_width) ^ 2)))
  else if mode = "Cos-Gauss" then
    some (gridrad.map (fun r =>
      Real.cos (2 * Real.pi * r / (50 * delta_R)) ^ 2
        * Real.exp (-(r / delta_R / 80) ^ 2)))
  else
    none

/-- Exact-arithmetic semantics of
`scipy.interpolate.interp1d(gridrad, I, kind='linear', assume_sorted=True)`
evaluated at `r`, on the uniform grid `gridrad[k] = Rmin + k*dR`: the value of
the straight line through the two nodes of the segment whose index is
`clamp(floor((r - Rmin)/dR), 0, len(I)-2)`.  On `[gridrad[0], gridrad[n-1]]`
this is the piecewise-linear interpolant; outside it is the linear
extrapolation of the nearest segment, which is exactly scipy's
`fill_value='extrapolate'` behaviour. -/
noncomputable def interpSeg (Rmin dR : ℝ) (I : List ℝ) (r : ℝ) : ℝ :=
  let k : ℤ := max 0 (min ⌊(r - Rmin) / dR⌋ ((I.length : ℤ) - 2))
  npGet I k + (r - (Rmin + k * dR)) * (npGet I (k + 1) - npGet I k) / dR

/-- Exact-arithmetic semantics of the same `interp1d` with
`bounds_error=False, fill_value=0.`: out-of-range points (strictly below the
first node or strictly above the last node) give `0`, in-range points give the
piecewise-linear interpolant. -/
noncomputable def interpZero (Rmin dR : ℝ) (I : List ℝ) (r : ℝ) : ℝ :=
  if r < Rmin ∨ Rmin + ((I.length : ℤ) - 1) * dR < r then 0
  else interpSeg Rmin dR I r

/-- Pixel value of the image produced by `g_sweep_prototype(I, Rmin, dR, nrow,
ncol, dxy, inc)` from `utils.py:33-64` at `(irow, jcol)` (valid for square or
tall images, where the loop writes no wrapped column index).  The nested loop
writes each window pixel once with the linearly interpolated profile value at
the deprojected radius; pixels outside the window keep the initial `0`; after
the loop the exact center pixel is overwritten when `Rmin != 0`. -/
noncomputable def g_sweep_prototype (I : List ℝ) (Rmin dR : ℝ) (nrow ncol : ℕ)
    (dxy inc : ℝ) (irow jcol : ℤ) : ℝ :=
  let nrad : ℤ := I.length
  let irow_center : ℤ := (nrow / 2 : ℕ)
  let icol_center : ℤ := (ncol / 2 : ℕ)
  let inc_cos : ℝ := Real.cos (inc / 180 * Real.pi)
  let rmax : ℤ := min ⌈(Rmin + nrad * dR) / dxy⌉ irow_center
  if irow = irow_center ∧ jcol = icol_center ∧ Rmin ≠ 0 then
    npGet I 0 + Rmin * (npGet I 0 - npGet I 1) / dR
  else if irow_center - rmax ≤ irow ∧ irow < irow_center + rmax ∧
          icol_center - rmax ≤ jcol ∧ jcol < icol_center + rmax then
    let x : ℝ := (icol_center - jcol : ℤ) * dxy
    let y : ℝ := (irow_center - irow : ℤ) * dxy
    let rr : ℝ := Real.sqrt ((x / inc_cos) ^ 2 + y ^ 2)
    let iR : ℤ := ⌊(rr - Rmin) / dR⌋
    if iR ≥ nrad - 1 then 0
    else npGet I iR + (rr - iR * dR - Rmin) * (npGet I (iR + 1) - npGet I iR) / dR
  else 0

/-- `g_sweep_prototype` including its `assert Rmin <= dxy` (line 35): a call
with `Rmin > dxy` raises `AssertionError` and returns nothing. -/
noncomputable def g_sweep_prototype_checked (I : List ℝ) (Rmin dR : ℝ)
    (nrow ncol : ℕ) (dxy inc : ℝ) : Option (ℤ → ℤ → ℝ) :=
  if Rmin ≤ dxy then some (g_sweep_prototype I Rmin dR nrow ncol dxy inc)
  else none

/-- Pixel value of the image produced by `sweep_ref(I, Rmin, dR, nrow, ncol,
dxy, inc, Dx, Dy)` from `utils.py:67-120` at `(irow, jcol)`.  The pixel-center
meshes are `x[j] = (ncol/2 - j)*dxy` and `y[i] = (nrow/2 - i)*dxy` (real
division, from the `linspace` construction); the x axis is shrunk by
`cos(inc)` after subtracting the offsets, every pixel gets the zero-filled
linear interpolant of the profile at its deprojected radius, and the exact
center pixel is then overwritten with the extrapolating interpolant at `r=0`. -/
noncomputable def sweep_ref (I : List ℝ) (Rmin dR : ℝ) (nrow ncol : ℕ)
    (dxy inc Dx Dy : ℝ) (irow jcol : ℤ) : ℝ :=
  let inc_cos : ℝ := Real.cos (inc / 180 * Real.pi)
  let x : ℝ := ((ncol : ℝ) / 2 - (jcol : ℝ)) * dxy
  let y : ℝ := ((nrow : ℝ) / 2 - (irow : ℝ)) * dxy
  let xxx : ℝ := (x - Dx * dxy) / inc_cos
  let yyy : ℝ := y - Dy * dxy
  let rr : ℝ := Real.sqrt (xxx ^ 2 + yyy ^ 2)
  if irow = ((nrow / 2 : ℕ) : ℤ) ∧ jcol = ((ncol / 2 : ℕ) : ℤ) then
    interpSeg Rmin dR I 0
  else interpZero Rmin dR I rr

/-- `sweep_ref` performs no precondition check at all: every call returns an
image.  This wrapper records that fact in the same `Option` shape as
`g_sweep_prototype_checked`. -/
noncomputable def sweep_ref_checked (I : List ℝ) (Rmin dR : ℝ) (nrow ncol : ℕ)
    (dxy inc Dx Dy : ℝ) : Option (ℤ → ℤ → ℝ) :=
  some (sweep_ref I Rmin dR nrow ncol dxy inc Dx Dy)

/-- `uv_idx(udat, vdat, du, half_size)` from `utils.py:166-172` (C2C layout),
for one `(u, v)` sample; the numpy version maps this over the sample arrays
elementwise. -/
def uv_idx {K : Type} [LinearOrderedField K] (udat vdat du half_size : K) :
    K × K :=
  (half_size + udat / du, half_size + vdat / du)

/-- `uv_idx_r2c(udat, vdat, du, half_size)` from `utils.py:175-186` (R2C
layout), for one `(u, v)` sample: `indu = |u|/du`, and `indv` is
`half_size + v/du` except on the mask `u < 0`, where it is overwritten with
`half_size - v/du`. -/
def uv_idx_r2c {K : Type} [LinearOrderedField K] (udat vdat du half_size : K) :
    K × K :=
  (|udat| / du,
   if udat < 0 then half_size - vdat / du else half_size + vdat / du)

/-- Body of the loop of `int_bilin_MT(f, x, y)` from `utils.py:197-214` for
one sample: `t = y - floor(y)`, `u = x - floor(x)`, the four surrounding
pixels `y0 = f[floor(y), floor(x)]`, `y1 = f[floor(y)+1, floor(x)]`,
`y2 = f[floor(y)+1, floor(x)+1]`, `y3 = f[floor(y), floor(x)+1]`, and the
accumulated value `t*u*(y0-y1+y2-y3) + t*(y1-y0) + u*(y3-y0) + y0`. -/
def bilin {K : Type} [LinearOrderedField K] [FloorRing K]
    (f : ℤ → ℤ → K) (x y : K) : K :=
  let t : K := y - (⌊y⌋ : K)
  let u : K := x - (⌊x⌋ : K)
  let y0 := f ⌊y⌋ ⌊x⌋
  let y1 := f (⌊y⌋ + 1) ⌊x⌋
  let y2 := f (⌊y⌋ + 1) (⌊x⌋ + 1)
  let y3 := f ⌊y⌋ (⌊x⌋ + 1)
  t * u * (y0 - y1 + y2 - y3) + t * (y1 - y0) + u * (y3 - y0) + y0

/-- `int_bilin_MT(f, x, y)` from `utils.py:197-214`: `fint` has one entry per
index of `x`, the `i`-th being the bilinear interpolation of the image `f` at
`(x[i], y[i])`. -/
def int_bilin_MT {K : Type} [LinearOrderedField K] [FloorRing K]
    (f : ℤ → ℤ → K) (x y : List K) : List K :=
  (List.range x.length).map (fun i => bilin f (x.getD i 0) (y.getD i 0))

/-- Entry `k` of `fftshift(fftfreq(nx))`: equals `(k - nx/2) / nx` with the
integer (floor) halving, for both parities of `nx`. -/
noncomputable def fftshiftFreq (nx : ℕ) (k : ℤ) : ℝ :=
  ((k : ℝ) - ((nx / 2 : ℕ) : ℝ)) / (nx : ℝ)

/-- Pixel `(i, j)` of `Fourier_shift_static(ft_centered, x0, y0, wle, maxuv)`
from `utils.py:234-273`: the shifts are scaled by `sec2rad/wle`, the
spatial-frequency axis is `maxuv * fftshift(fftfreq(nx)) * 2*pi`, the phase at
the pixel is `uu*x0 + vv*y0` (meshgrid: `uu` from the column, `vv` from the
row), and the phase factor is applied with explicit real/imaginary
arithmetic: `re' = re*cos - im*sin`, `im' = im*cos + re*sin`,
`v_shifted = re' + 1j*im'`. -/
noncomputable def Fourier_shift_static (ft_centered : ℤ → ℤ → ℂ)
    (x0 y0 wle maxuv : ℝ) (nx : ℕ) (i j : ℤ) : ℂ :=
  let sec2pixel : ℝ := sec2rad / wle
  let x0p : ℝ := x0 * sec2pixel
  let y0p : ℝ := y0 * sec2pixel
  let uu : ℝ := maxuv * fftshiftFreq nx j * (2 * Real.pi)
  let vv : ℝ := maxuv * fftshiftFreq nx i * (2 * Real.pi)
  let theta : ℝ := uu * x0p + vv * y0p
  let re_ft_c : ℝ := (ft_centered i j).re
  let im_ft_c : ℝ := (ft_centered i j).im
  ((re_ft_c * Real.cos theta - im_ft_c * Real.sin theta : ℝ) : ℂ) +
    Complex.I * ((im_ft_c * Real.cos theta + re_ft_c * Real.sin theta : ℝ) : ℂ)

/-- `Fourier_shift_array(u, v, fint, x0, y0)` from `utils.py:276-310` for one
sample: `x0, y0` are scaled by `sec2rad` and then by `2*pi`, the phase is
`theta = u*x0 + v*y0`, and the sample is multiplied by
`cos(theta) + 1j*sin(theta)`. -/
noncomputable def Fourier_shift_array (u v : ℝ) (fint : ℂ) (x0 y0 : ℝ) : ℂ :=
  let x0p : ℝ := x0 * sec2rad * (2 * Real.pi)
  let y0p : ℝ := y0 * sec2rad * (2 * Real.pi)
  let theta : ℝ := u * x0p + v * y0p
  fint * (((Real.cos theta : ℝ) : ℂ) + Complex.I * ((Real.sin theta : ℝ) : ℂ))

/-- Phase angle applied by `Fourier_shift_static` at pixel `(i, j)`. -/
noncomputable def thetaStatic (x0 y0 wle maxuv : ℝ) (nx : ℕ) (i j : ℤ) : ℝ :=
  maxuv * fftshiftFreq nx j * (2 * Real.pi) * (x0 * (sec2rad / wle)) +
    maxuv * fftshiftFreq nx i * (2 * Real.pi) * (y0 * (sec2rad / wle))

/-- Phase angle applied by `Fourier_shift_array` at the sample `(u, v)`. -/
noncomputable def thetaArray (u v x0 y0 : ℝ) : ℝ :=
  u * (x0 * sec2rad * (2 * Real.pi)) + v * (y0 * sec2rad * (2 * Real.pi))

/-! ### Helper lemmas -/

/-- Bilinear interpolation of a (total) image at exactly integral coordinates
returns the underlying pixel. -/
theorem bilin_intCast {K : Type} [LinearOrderedField K] [FloorRing K]
    (f : ℤ → ℤ → K) (a b : ℤ) : bilin f (a : K) (b : K) = f b a := by
  simp [bilin, Int.floor_intCast]

/-- Entry `i` of `int_bilin_MT f xs ys` is the bilinear interpolant at
`(xs[i], ys[i])`. -/
theorem int_bilin_MT_getD {K : Type} [LinearOrderedField K] [FloorRing K]
    (f : ℤ → ℤ → K) (xs ys : List K) (i : ℕ) (hi : i < xs.length) :
    (int_bilin_MT f xs ys).getD i 0 = bilin f (xs.getD i 0) (ys.getD i 0) := by
  simp [int_bilin_MT, List.getD_eq_getElem?_getD, List.getElem?_map,
    List.getElem?_range, hi]

/-! ### Claim C5 -/

/-- Claim C5 (counterexample): at `u = 0` the R2C map does not send `(u,v)`
and `(-u,-v)` to the same folded index: with `du = 1`, `half_size = 0`,
`(0,1)` goes to `(0, 1)` while `(-0,-1)` goes to `(0, -1)`. -/
theorem uv_idx_r2c_fold_fails_at_u_zero :
    ¬ (uv_idx_r2c (0 : ℚ) 1 1 0 = uv_idx_r2c (-(0 : ℚ)) (-1) 1 0) := by
  simp only [uv_idx_r2c, Prod.mk.injEq, not_and]
  intro h
  norm_num

/-- Claim C5 (amended): for every `(u, v)` and parameters, the R2C map gives
`(u,v)` and `(-u,-v)` the same `pixel_u = |u|/du`; whenever `u ≠ 0` the two
samples also receive the same `pixel_v` (Hermitian fold consistency), while
for `u = 0` the two `pixel_v` values are reflections of one another about
`half_size` (they sum to `2*half_size`). -/
theorem uv_idx_r2c_fold {K : Type} [LinearOrderedField K]
    (u v du half_size : K) :
    (uv_idx_r2c u v du half_size).1 = (uv_idx_r2c (-u) (-v) du half_size).1 ∧
    (u ≠ 0 →
      uv_idx_r2c u v du half_size = uv_idx_r2c (-u) (-v) du half_size) ∧
    (u = 0 →
      (uv_idx_r2c u v du half_size).2 + (uv_idx_r2c (-u) (-v) du half_size).2
        = 2 * half_size) := by
  refine ⟨by simp [uv_idx_r2c], ?_, ?_⟩
  · intro hu
    rcases lt_trichotomy u 0 with h | h | h
    · have h1 : ¬ -u < 0 := by linarith
      simp only [uv_idx_r2c, Prod.mk.injEq, if_pos h, if_neg h1, abs_neg,
        neg_div]
      exact ⟨trivial, by ring⟩
    · exact absurd h hu
    · have h1 : ¬ u < 0 := by linarith
      have h2 : -u < 0 := by linarith
      simp only [uv_idx_r2c, Prod.mk.injEq, if_neg h1, if_pos h2, abs_neg,
        neg_div]
      exact ⟨trivial, by ring⟩
  · intro hu
    subst hu
    simp only [uv_idx_r2c, neg_zero, neg_div]
    norm_num
    ring

/-- Witness for `uv_idx_r2c_fold` at `(u, v, du, half_size) = (1, 3, 2, 5)`
over `ℚ`. -/
theorem uv_idx_r2c_fold_witness :
    (uv_idx_r2c (1 : ℚ) 3 2 5).1 = (uv_idx_r2c (-(1 : ℚ)) (-3) 2 5).1 ∧
    uv_idx_r2c (1 : ℚ) 3 2 5 = uv_idx_r2c (-(1 : ℚ)) (-3) 2 5 := by
  obtain ⟨h1, h2, _⟩ := uv_idx_r2c_fold (1 : ℚ) 3 2 5
  exact ⟨h1, h2 (by norm_num)⟩

/-! ### Claim C6 -/

/-- Claim C6: for every image `f` and coordinate lists of equal length, the
bilinear sampler returns one value per input pair, in input order: the output
has the length of the input, and its `i`-th entry equals
`t*u*(f00 - f10 + f11 - f01) + t*(f10 - f00) + u*(f01 - f00) + f00` where
`f00 = f[⌊y⌋,⌊x⌋]`, `f10 = f[⌊y⌋+1,⌊x⌋]`, `f11 = f[⌊y⌋+1,⌊x⌋+1]`,
`f01 = f[⌊y⌋,⌊x⌋+1]`, `t = y - ⌊y⌋`, `u = x - ⌊x⌋`, at `x = xs[i]`,
`y = ys[i]`. -/
theorem int_bilin_MT_spec {K : Type} [LinearOrderedField K] [FloorRing K]
    (f : ℤ → ℤ → K) (xs ys : List K) (i : ℕ)
    (_hlen : ys.length = xs.length) (hi : i < xs.length) :
    (int_bilin_MT f xs ys).length = xs.length ∧
    (int_bilin_MT f xs ys).getD i 0 =
      (ys.getD i 0 - (⌊ys.getD i 0⌋ : K)) * (xs.getD i 0 - (⌊xs.getD i 0⌋ : K))
          * (f ⌊ys.getD i 0⌋ ⌊xs.getD i 0⌋ - f (⌊ys.getD i 0⌋ + 1) ⌊xs.getD i 0⌋
             + f (⌊ys.getD i 0⌋ + 1) (⌊xs.getD i 0⌋ + 1)
             - f ⌊ys.getD i 0⌋ (⌊xs.getD i 0⌋ + 1))
        + (ys.getD i 0 - (⌊ys.getD i 0⌋ : K))
          * (f (⌊ys.getD i 0⌋ + 1) ⌊xs.getD i 0⌋ - f ⌊ys.getD i 0⌋ ⌊xs.getD i 0⌋)
        + (xs.getD i 0 - (⌊xs.getD i 0⌋ : K))
          * (f ⌊ys.getD i 0⌋ (⌊xs.getD i 0⌋ + 1) - f ⌊ys.getD i 0⌋ ⌊xs.getD i 0⌋)
        + f ⌊ys.getD i 0⌋ ⌊xs.getD i 0⌋ := by
  refine ⟨by simp [int_bilin_MT], ?_⟩
  rw [int_bilin_MT_getD f xs ys i hi]
  rfl

/-- Witness for `int_bilin_MT_spec` over `ℚ`: image `f(r,c) = r + 2c`,
sample `(x, y) = (3/2, 1/2)`; the interpolated value is `7/2`. -/
theorem int_bilin_MT_spec_witness :
    (int_bilin_MT (fun r c => (r : ℚ) + 2 * c) [3/2] [1/2]).length = 1 ∧
    (int_bilin_MT (fun r c => (r : ℚ) + 2 * c) [3/2] [1/2]).getD 0 0 = 7/2 := by
  have h := int_bilin_MT_spec (fun r c => (r : ℚ) + 2 * c) [3/2] [1/2] 0
    (by norm_num) (by norm_num)
  refine ⟨h.1, ?_⟩
  rw [h.2]
  norm_num

/-! ### Claim C7 -/

/-- Claim C7: a bilinear sample whose coordinates are exact (non-negative)
integers reproduces the source pixel value `f[y, x]` exactly. -/
theorem int_bilin_MT_at_integers {K : Type} [LinearOrderedField K] [FloorRing K]
    (f : ℤ → ℤ → K) (xs ys : List K) (i : ℕ) (a b : ℤ)
    (hi : i < xs.length) (_ha : 0 ≤ a) (_hb : 0 ≤ b)
    (hx : xs.getD i 0 = (a : K)) (hy : ys.getD i 0 = (b : K)) :
    (int_bilin_MT f xs ys).getD i 0 = f b a := by
  rw [int_bilin_MT_getD f xs ys i hi, hx, hy, bilin_intCast]

/-- Witness for `int_bilin_MT_at_integers` over `ℚ`: image `f(r,c) = 10r + c`
sampled at the integer point `(x, y) = (2, 3)` gives `f(3, 2) = 32`. -/
theorem int_bilin_MT_at_integers_witness :
    (int_bilin_MT (fun r c => 10 * (r : ℚ) + c) [2] [3]).getD 0 0 = 32 := by
  have h := int_bilin_MT_at_integers (fun r c => 10 * (r : ℚ) + c) [2] [3] 0 2 3
    (by norm_num) (by norm_num) (by norm_num) (by norm_num) (by norm_num)
  rw [h]
  norm_num

/-! ### More helper lemmas: phase factors as complex exponentials -/

/-- The code's `cos(theta) + 1j*sin(theta)` is the complex exponential of
`theta * I`. -/
theorem cis_form (θ : ℝ) :
    ((Real.cos θ : ℝ) : ℂ) + Complex.I * ((Real.sin θ : ℝ) : ℂ) =
      Complex.exp ((θ : ℂ) * Complex.I) := by
  rw [Complex.exp_mul_I, ← Complex.ofReal_cos, ← Complex.ofReal_sin]
  ring

/-- `Fourier_shift_array` multiplies the sample by `exp(i*theta)`. -/
theorem Fourier_shift_array_eq (u v : ℝ) (fint : ℂ) (x0 y0 : ℝ) :
    Fourier_shift_array u v fint x0 y0 =
      fint * Complex.exp ((thetaArray u v x0 y0 : ℂ) * Complex.I) := by
  rw [Fourier_shift_array, ← cis_form]
  rfl

/-- `Fourier_shift_static`, written with explicit real/imaginary arithmetic in
the code, equals multiplication of the grid value by `exp(i*theta)`. -/
theorem Fourier_shift_static_eq (ft : ℤ → ℤ → ℂ) (x0 y0 wle maxuv : ℝ)
    (nx : ℕ) (i j : ℤ) :
    Fourier_shift_static ft x0 y0 wle maxuv nx i j =
      ft i j * Complex.exp ((thetaStatic x0 y0 wle maxuv nx i j : ℂ) * Complex.I) := by
  rw [Fourier_shift_static, ← cis_form]
  set θ : ℝ := thetaStatic x0 y0 wle maxuv nx i j with hθ
  have harg : maxuv * fftshiftFreq nx j * (2 * Real.pi) * (x0 * (sec2rad / wle)) +
      maxuv * fftshiftFreq nx i * (2 * Real.pi) * (y0 * (sec2rad / wle)) = θ := by
    rw [hθ, thetaStatic]
  rw [harg]
  apply Complex.ext
  · simp [Complex.mul_re]
    try ring
  · simp [Complex.mul_im]
    try ring

/-- Negating both shift components negates the static phase. -/
theorem thetaStatic_neg (x0 y0 wle maxuv : ℝ) (nx : ℕ) (i j : ℤ) :
    thetaStatic (-x0) (-y0) wle maxuv nx i j = -thetaStatic x0 y0 wle maxuv nx i j := by
  simp only [thetaStatic]
  ring

/-- Negating both shift components negates the point-form phase. -/
theorem thetaArray_neg (u v x0 y0 : ℝ) :
    thetaArray u v (-x0) (-y0) = -thetaArray u v x0 y0 := by
  simp only [thetaArray]
  ring

/-! ### Claim C8 -/

/-- Claim C8: phase-shift round-trip.  Applying the point-form shift with
`(x0, y0)` and then with `(-x0, -y0)` restores the original visibility sample
exactly (in exact real arithmetic), and the grid form applied with `(x0, y0)`
then `(-x0, -y0)` restores the original grid value at every pixel. -/
theorem Fourier_shift_round_trip (u v : ℝ) (fint : ℂ) (x0 y0 : ℝ)
    (ft : ℤ → ℤ → ℂ) (wle maxuv : ℝ) (nx : ℕ) (i j : ℤ) :
    Fourier_shift_array u v (Fourier_shift_array u v fint x0 y0) (-x0) (-y0)
      = fint ∧
    Fourier_shift_static (Fourier_shift_static ft x0 y0 wle maxuv nx)
      (-x0) (-y0) wle maxuv nx i j = ft i j := by
  constructor
  · rw [Fourier_shift_array_eq, Fourier_shift_array_eq, thetaArray_neg,
      mul_assoc, ← Complex.exp_add]
    have h : (thetaArray u v x0 y0 : ℂ) * Complex.I +
        ((-thetaArray u v x0 y0 : ℝ) : ℂ) * Complex.I = 0 := by
      push_cast
      ring
    rw [h, Complex.exp_zero, mul_one]
  · rw [Fourier_shift_static_eq, Fourier_shift_static_eq, thetaStatic_neg,
      mul_assoc, ← Complex.exp_add]
    have h : (thetaStatic x0 y0 wle maxuv nx i j : ℂ) * Complex.I +
        ((-thetaStatic x0 y0 wle maxuv nx i j : ℝ) : ℂ) * Complex.I = 0 := by
      push_cast
      ring
    rw [h, Complex.exp_zero, mul_one]

/-! ### Claim C9 -/

/-- Claim C9 (counterexample): with `Rmin = 2 > dxy = 1`, the reference sweep
fails its assertion (returns nothing), but `sweep_ref` happily returns an
image; so it is not the case that every sweep invocation with `Rmin > dxy`
fails fast. -/
theorem sweep_precondition_not_both_enforced :
    g_sweep_prototype_checked [1, 1] 2 1 8 8 1 0 = none ∧
    sweep_ref_checked [1, 1] 2 1 8 8 1 0 0 0 ≠ none := by
  constructor
  · rw [g_sweep_prototype_checked, if_neg]
    norm_num
  · rw [sweep_ref_checked]
    exact Option.some_ne_none _

/-- Claim C9 (amended): a `g_sweep_prototype` invocation with `Rmin > dxy`
fails fast via its assertion, while `sweep_ref` performs no such check and
always returns an image. -/
theorem sweep_precondition_enforcement (I : List ℝ) (Rmin dR : ℝ)
    (nrow ncol : ℕ) (dxy inc Dx Dy : ℝ) (h : dxy < Rmin) :
    g_sweep_prototype_checked I Rmin dR nrow ncol dxy inc = none ∧
    (sweep_ref_checked I Rmin dR nrow ncol dxy inc Dx Dy).isSome = true := by
  constructor
  · rw [g_sweep_prototype_checked, if_neg (not_le.mpr h)]
  · rfl

/-- Witness for `sweep_precondition_enforcement` at `Rmin = 2`, `dxy = 1`. -/
theorem sweep_precondition_enforcement_witness :
    g_sweep_prototype_checked [1, 1] 2 1 8 8 1 0 = none ∧
    (sweep_ref_checked [1, 1] 2 1 8 8 1 0 0 0).isSome = true :=
  sweep_precondition_enforcement [1, 1] 2 1 8 8 1 0 0 0 (by norm_num)

/-! ### Claim C10 -/

/-- Claim C10: `radial_profile` is defined exactly for the modes `'Gauss'`
and `'Cos-Gauss'`.  For those it returns the list of intensities evaluated on
the grid `Rmin + i*delta_R`, `i < nrad` (so exactly `nrad` values, the `i`-th
aligned with the `i`-th grid radius); for every other mode string the call
fails (returns nothing). -/
theorem radial_profile_modes (Rmin delta_R : ℝ) (nrad : ℕ) (gw : ℝ)
    (mode : String) (i : ℕ) (hi : i < nrad) :
    (mode = "Gauss" →
      radial_profile Rmin delta_R nrad mode gw =
        some ((List.range nrad).map
          (fun k : ℕ => Real.exp (-((Rmin + delta_R * k) / delta_R / gw) ^ 2))) ∧
      ((radial_profile Rmin delta_R nrad mode gw).getD []).length = nrad ∧
      ((radial_profile Rmin delta_R nrad mode gw).getD []).getD i 0 =
        Real.exp (-((Rmin + delta_R * i) / delta_R / gw) ^ 2)) ∧
    (mode = "Cos-Gauss" →
      radial_profile Rmin delta_R nrad mode gw =
        some ((List.range nrad).map
          (fun k : ℕ => Real.cos (2 * Real.pi * (Rmin + delta_R * k) / (50 * delta_R)) ^ 2
            * Real.exp (-((Rmin + delta_R * k) / delta_R / 80) ^ 2))) ∧
      ((radial_profile Rmin delta_R nrad mode gw).getD []).length = nrad ∧
      ((radial_profile Rmin delta_R nrad mode gw).getD []).getD i 0 =
        Real.cos (2 * Real.pi * (Rmin + delta_R * i) / (50 * delta_R)) ^ 2
          * Real.exp (-((Rmin + delta_R * i) / delta_R / 80) ^ 2)) ∧
    (mode ≠ "Gauss" → mode ≠ "Cos-Gauss" →
      radial_profile Rmin delta_R nrad mode gw = none) := by
  refine ⟨?_, ?_, ?_⟩
  · intro hmode
    subst hmode
    have hsome : radial_profile Rmin delta_R nrad "Gauss" gw =
        some ((List.range nrad).map
          (fun k : ℕ => Real.exp (-((Rmin + delta_R * k) / delta_R / gw) ^ 2))) := by
      rw [radial_profile, if_pos rfl, List.map_map]
      rfl
    refine ⟨hsome, ?_, ?_⟩
    · rw [hsome]
      simp
    · rw [hsome]
      simp [List.getD_eq_getElem?_getD, List.getElem?_map, List.getElem?_range, hi]
  · intro hmode
    subst hmode
    have hsome : radial_profile Rmin delta_R nrad "Cos-Gauss" gw =
        some ((List.range nrad).map
          (fun k : ℕ => Real.cos (2 * Real.pi * (Rmin + delta_R * k) / (50 * delta_R)) ^ 2
            * Real.exp (-((Rmin + delta_R * k) / delta_R / 80) ^ 2))) := by
      rw [radial_profile, if_neg (by simp), if_pos rfl, List.map_map]
      rfl
    refine ⟨hsome, ?_, ?_⟩
    · rw [hsome]
      simp
    · rw [hsome]
      simp [List.getD_eq_getElem?_getD, List.getElem?_map, List.getElem?_range, hi]
  · intro h1 h2
    rw [radial_profile, if_neg h1, if_neg h2]

/-- Witness for `radial_profile_modes` at `mode = 'Gauss'`,
`(Rmin, delta_R, nrad, gw) = (0, 1, 5, 100)`, entry `i = 2`. -/
theorem radial_profile_modes_witness :
    radial_profile 0 1 5 "Gauss" 100 =
      some ((List.range 5).map
        (fun k : ℕ => Real.exp (-((0 + 1 * k) / 1 / 100) ^ 2))) ∧
    ((radial_profile 0 1 5 "Gauss" 100).getD []).length = 5 ∧
    ((radial_profile 0 1 5 "Gauss" 100).getD []).getD 2 0 =
      Real.exp (-((0 + 1 * (2 : ℕ)) / 1 / 100) ^ 2) :=
  (radial_profile_modes 0 1 5 100 "Gauss" 2 (by norm_num)).1 rfl

/-! ### Claim C4 -/

/-- Linear extrapolation of the profile to `r = 0` (the `fill_value` =
`'extrapolate'` interpolant at `0`) equals the closed-form center formula
`I[0] + Rmin*(I[0] - I[1])/dR`. -/
theorem interpSeg_at_zero (I : List ℝ) (Rmin dR : ℝ) (hlen : 2 ≤ I.length)
    (hdR : 0 < dR) (hRmin : 0 ≤ Rmin) :
    interpSeg Rmin dR I 0 = npGet I 0 + Rmin * (npGet I 0 - npGet I 1) / dR := by
  rw [interpSeg]
  have hfloor : ⌊(0 - Rmin) / dR⌋ ≤ 0 := by
    have hq : (0 - Rmin) / dR ≤ 0 :=
      div_nonpos_iff.mpr (Or.inr ⟨by linarith, le_of_lt hdR⟩)
    calc ⌊(0 - Rmin) / dR⌋ ≤ ⌊(0 : ℝ)⌋ := Int.floor_le_floor hq
      _ = 0 := Int.floor_zero
  have hlen' : (0 : ℤ) ≤ (I.length : ℤ) - 2 := by
    have : (2 : ℤ) ≤ (I.length : ℤ) := by exact_mod_cast hlen
    omega
  have hk : max 0 (min ⌊(0 - Rmin) / dR⌋ ((I.length : ℤ) - 2)) = 0 := by
    omega
  rw [hk]
  push_cast
  ring_nf

/-- Claim C4: when `Rmin ≠ 0` (and `0 < Rmin ≤ dxy`), both sweep variants set
the exact center pixel `(⌊nrow/2⌋, ⌊ncol/2⌋)` to
`I[0] + Rmin*(I[0] - I[1])/dR`: the reference by its closed-form override, and
`sweep_ref` by linear extrapolation of the profile to `r = 0`, which equals
the same formula in exact arithmetic. -/
theorem center_pixel_override (I : List ℝ) (Rmin dR : ℝ) (nrow ncol : ℕ)
    (dxy inc Dx Dy : ℝ) (hlen : 2 ≤ I.length) (hdR : 0 < dR)
    (hRmin : 0 < Rmin) (_hRdxy : Rmin ≤ dxy) :
    g_sweep_prototype I Rmin dR nrow ncol dxy inc
        ((nrow / 2 : ℕ) : ℤ) ((ncol / 2 : ℕ) : ℤ) =
      npGet I 0 + Rmin * (npGet I 0 - npGet I 1) / dR ∧
    sweep_ref I Rmin dR nrow ncol dxy inc Dx Dy
        ((nrow / 2 : ℕ) : ℤ) ((ncol / 2 : ℕ) : ℤ) =
      npGet I 0 + Rmin * (npGet I 0 - npGet I 1) / dR := by
  constructor
  · rw [g_sweep_prototype, if_pos ⟨rfl, rfl, ne_of_gt hRmin⟩]
  · rw [sweep_ref, if_pos ⟨rfl, rfl⟩]
    exact interpSeg_at_zero I Rmin dR hlen hdR (le_of_lt hRmin)

/-- Witness for `center_pixel_override`: profile `[2, 1]`, `Rmin = 1/2`,
`dR = 1`, `dxy = 1`, `8×8` image, `inc = Dx = Dy = 0`. -/
theorem center_pixel_override_witness :
    g_sweep_prototype [2, 1] (1/2) 1 8 8 1 0 ((8 / 2 : ℕ) : ℤ) ((8 / 2 : ℕ) : ℤ) =
      npGet [2, 1] 0 + (1/2) * (npGet [2, 1] 0 - npGet [2, 1] 1) / 1 ∧
    sweep_ref [2, 1] (1/2) 1 8 8 1 0 0 0 ((8 / 2 : ℕ) : ℤ) ((8 / 2 : ℕ) : ℤ) =
      npGet [2, 1] 0 + (1/2) * (npGet [2, 1] 0 - npGet [2, 1] 1) / 1 :=
  center_pixel_override [2, 1] (1/2) 1 8 8 1 0 0 0 (by norm_num) (by norm_num)
    (by norm_num) (by norm_num)

/-! ### Claim C3 -/

/-- Claim C3: for every non-center pixel inside the reference sweep's
computation window (half-width `rmax = min(⌈(Rmin + n*dR)/dxy⌉, ⌊nrow/2⌋)`
around the center), the pixel value is obtained by deprojecting the physical
offset to `rr = sqrt((x/cos(inc))² + y²)` with `x = (⌊ncol/2⌋ - jcol)*dxy`,
`y = (⌊nrow/2⌋ - irow)*dxy`, taking `iR = ⌊(rr - Rmin)/dR⌋`, and storing `0`
when `iR ≥ n - 1` and otherwise
`I[iR] + (rr - iR*dR - Rmin)*(I[iR+1] - I[iR])/dR`. -/
theorem g_sweep_window_formula (I : List ℝ) (Rmin dR : ℝ) (nrow ncol : ℕ)
    (dxy inc : ℝ) (irow jcol : ℤ) (rmax : ℤ) (rr : ℝ) (iR : ℤ)
    (hnc : ¬(irow = ((nrow / 2 : ℕ) : ℤ) ∧ jcol = ((ncol / 2 : ℕ) : ℤ)))
    (hrmax : rmax = min ⌈(Rmin + (I.length : ℤ) * dR) / dxy⌉ ((nrow / 2 : ℕ) : ℤ))
    (hwin : ((nrow / 2 : ℕ) : ℤ) - rmax ≤ irow ∧ irow < ((nrow / 2 : ℕ) : ℤ) + rmax ∧
            ((ncol / 2 : ℕ) : ℤ) - rmax ≤ jcol ∧ jcol < ((ncol / 2 : ℕ) : ℤ) + rmax)
    (hrr : rr = Real.sqrt
      (((((ncol / 2 : ℕ) : ℤ) - jcol : ℤ) * dxy / Real.cos (inc / 180 * Real.pi)) ^ 2 +
        ((((nrow / 2 : ℕ) : ℤ) - irow : ℤ) * dxy) ^ 2))
    (hiR : iR = ⌊(rr - Rmin) / dR⌋) :
    g_sweep_prototype I Rmin dR nrow ncol dxy inc irow jcol =
      if (I.length : ℤ) - 1 ≤ iR then 0
      else npGet I iR + (rr - iR * dR - Rmin) * (npGet I (iR + 1) - npGet I iR) / dR := by
  subst hrmax hrr hiR
  rw [g_sweep_prototype, if_neg (fun h => hnc ⟨h.1, h.2.1⟩), if_pos hwin]

/-- Witness for `g_sweep_window_formula`: profile `[1, 1, 1]`, `Rmin = 0`,
`dR = dxy = 1`, `8×8` image, `inc = 0`, pixel `(4, 2)` (window half-width is
`3`; the pixel is inside the window and off-center). -/
theorem g_sweep_window_formula_witness :
    ¬((4 : ℤ) = ((8 / 2 : ℕ) : ℤ) ∧ (2 : ℤ) = ((8 / 2 : ℕ) : ℤ)) ∧
    g_sweep_prototype [1, 1, 1] 0 1 8 8 1 0 4 2 =
      (if (([1, 1, 1].length : ℤ) - 1 : ℤ) ≤
          ⌊(Real.sqrt (((((8 / 2 : ℕ) : ℤ) - 2 : ℤ) * 1 / Real.cos (0 / 180 * Real.pi)) ^ 2 +
              ((((8 / 2 : ℕ) : ℤ) - 4 : ℤ) * 1) ^ 2) - 0) / 1⌋ then 0
        else npGet [1, 1, 1] ⌊(Real.sqrt (((((8 / 2 : ℕ) : ℤ) - 2 : ℤ) * 1 / Real.cos (0 / 180 * Real.pi)) ^ 2 +
              ((((8 / 2 : ℕ) : ℤ) - 4 : ℤ) * 1) ^ 2) - 0) / 1⌋ +
          (Real.sqrt (((((8 / 2 : ℕ) : ℤ) - 2 : ℤ) * 1 / Real.cos (0 / 180 * Real.pi)) ^ 2 +
              ((((8 / 2 : ℕ) : ℤ) - 4 : ℤ) * 1) ^ 2) - 0 -
            ⌊(Real.sqrt (((((8 / 2 : ℕ) : ℤ) - 2 : ℤ) * 1 / Real.cos (0 / 180 * Real.pi)) ^ 2 +
              ((((8 / 2 : ℕ) : ℤ) - 4 : ℤ) * 1) ^ 2) - 0) / 1⌋ * 1 - 0) *
            (npGet [1, 1, 1] (⌊(Real.sqrt (((((8 / 2 : ℕ) : ℤ) - 2 : ℤ) * 1 / Real.cos (0 / 180 * Real.pi)) ^ 2 +
              ((((8 / 2 : ℕ) : ℤ) - 4 : ℤ) * 1) ^ 2) - 0) / 1⌋ + 1) -
             npGet [1, 1, 1] ⌊(Real.sqrt (((((8 / 2 : ℕ) : ℤ) - 2 : ℤ) * 1 / Real.cos (0 / 180 * Real.pi)) ^ 2 +
              ((((8 / 2 : ℕ) : ℤ) - 4 : ℤ) * 1) ^ 2) - 0) / 1⌋) / 1) := by
  refine ⟨by norm_num, ?_⟩
  apply g_sweep_window_formula [1, 1, 1] 0 1 8 8 1 0 4 2 3 _ _
  · norm_num
  · norm_num
  · norm_num
  · norm_num
  · norm_num

/-! ### Claim C1 -/

/-- Entry `0` of `int_bilin_MT` on singleton coordinate lists is the bilinear
interpolant at that coordinate pair. -/
theorem int_bilin_MT_singleton {K : Type} [LinearOrderedField K] [FloorRing K]
    (f : ℤ → ℤ → K) (px py : K) :
    (int_bilin_MT f [px] [py]).getD 0 0 = bilin f px py := by
  rw [int_bilin_MT_getD f [px] [py] 0 (by norm_num)]
  rfl

/-- The phases of the two shift forms agree at grid-aligned sample points:
when `(u, v)` are the physical coordinates of pixel `(i, j)` of the grid (in
units of the observing wavelength), the point-form phase equals the grid-form
phase at that pixel. -/
theorem thetaStatic_eq_thetaArray (x0 y0 wle maxuv : ℝ) (nx : ℕ) (i j : ℤ)
    (u v : ℝ) (hnx : 0 < nx) (hw : wle ≠ 0)
    (hu : u = maxuv * ((j : ℝ) - ((nx / 2 : ℕ) : ℝ)) / (nx * wle))
    (hv : v = maxuv * ((i : ℝ) - ((nx / 2 : ℕ) : ℝ)) / (nx * wle)) :
    thetaArray u v x0 y0 = thetaStatic x0 y0 wle maxuv nx i j := by
  subst hu hv
  rw [thetaArray, thetaStatic, fftshiftFreq, fftshiftFreq]
  have hnx' : (nx : ℝ) ≠ 0 := Nat.cast_ne_zero.mpr hnx.ne'
  field_simp
  ring

/-- The C2C coordinate map sends the grid-aligned sample `(u, v)` of pixel
`(i, j)` exactly to the pixel coordinates `(j, i)`. -/
theorem uv_idx_grid_aligned (maxuv wle : ℝ) (nx : ℕ) (i j : ℤ) (u v du hs : ℝ)
    (hnx : 0 < nx) (hw : wle ≠ 0) (hm : maxuv ≠ 0)
    (hdu : du = maxuv / (nx * wle)) (hhs : hs = ((nx / 2 : ℕ) : ℝ))
    (hu : u = maxuv * ((j : ℝ) - ((nx / 2 : ℕ) : ℝ)) / (nx * wle))
    (hv : v = maxuv * ((i : ℝ) - ((nx / 2 : ℕ) : ℝ)) / (nx * wle)) :
    uv_idx u v du hs = ((j : ℝ), (i : ℝ)) := by
  subst hdu hhs hu hv
  have hnx' : (nx : ℝ) ≠ 0 := Nat.cast_ne_zero.mpr hnx.ne'
  rw [uv_idx, Prod.mk.injEq]
  constructor
  · field_simp
  · field_simp

/-- Claim C1: cross-consistency of the two phase-shift forms, in exact real
arithmetic at interpolation-exact sample points.  For every complex Fourier
grid `ft`, shift `(x0, y0)`, wavelength `wle` and `maxuv`, and every pixel
`(i, j)`: take the `(u, v)` sample at the physical coordinates of that pixel
(pixel scale `du = maxuv/(nx*wle)`, half size `⌊nx/2⌋`).  Sampling the
grid-form shifted transform (`Fourier_shift_static`) at `(u, v)` via the
coordinate mapping `uv_idx` plus bilinear interpolation (`int_bilin_MT` on
the real and imaginary parts, recombined as `re + 1j*im`) yields exactly the
value of the point-form shift (`Fourier_shift_array`) applied to the sample
of the unshifted transform obtained at the same `(u, v)` point through the
same mapping-plus-interpolation path. -/
theorem shift_forms_consistent (ft : ℤ → ℤ → ℂ) (x0 y0 wle maxuv : ℝ)
    (nx : ℕ) (i j : ℤ) (u v du hs : ℝ)
    (hnx : 0 < nx) (hw : wle ≠ 0) (hm : maxuv ≠ 0)
    (hdu : du = maxuv / (nx * wle)) (hhs : hs = ((nx / 2 : ℕ) : ℝ))
    (hu : u = maxuv * ((j : ℝ) - ((nx / 2 : ℕ) : ℝ)) / (nx * wle))
    (hv : v = maxuv * ((i : ℝ) - ((nx / 2 : ℕ) : ℝ)) / (nx * wle)) :
    (((int_bilin_MT (fun a b => (Fourier_shift_static ft x0 y0 wle maxuv nx a b).re)
        [(uv_idx u v du hs).1] [(uv_idx u v du hs).2]).getD 0 0 : ℝ) : ℂ) +
      Complex.I * (((int_bilin_MT (fun a b => (Fourier_shift_static ft x0 y0 wle maxuv nx a b).im)
        [(uv_idx u v du hs).1] [(uv_idx u v du hs).2]).getD 0 0 : ℝ) : ℂ) =
    Fourier_shift_array u v
      ((((int_bilin_MT (fun a b => (ft a b).re)
          [(uv_idx u v du hs).1] [(uv_idx u v du hs).2]).getD 0 0 : ℝ) : ℂ) +
        Complex.I * (((int_bilin_MT (fun a b => (ft a b).im)
          [(uv_idx u v du hs).1] [(uv_idx u v du hs).2]).getD 0 0 : ℝ) : ℂ))
      x0 y0 := by
  have hmap := uv_idx_grid_aligned maxuv wle nx i j u v du hs hnx hw hm hdu hhs hu hv
  rw [hmap]
  simp only [int_bilin_MT_singleton, bilin_intCast]
  have hrecombine : ∀ z : ℂ, ((z.re : ℝ) : ℂ) + Complex.I * ((z.im : ℝ) : ℂ) = z := by
    intro z
    rw [mul_comm]
    exact Complex.re_add_im z
  rw [hrecombine, hrecombine, Fourier_shift_static_eq, Fourier_shift_array_eq,
    thetaStatic_eq_thetaArray x0 y0 wle maxuv nx i j u v hnx hw hu hv]

/-- Witness for `shift_forms_consistent`: constant grid `ft = 1`, `nx = 2`,
`wle = maxuv = 1`, pixel `(0, 0)`, shift `(0, 0)`; the sample is
`(u, v) = (-1/2, -1/2)`, `du = 1/2`, `hs = 1`. -/
theorem shift_forms_consistent_witness :
    (((int_bilin_MT (fun a b => (Fourier_shift_static (fun _ _ => (1 : ℂ)) 0 0 1 1 2 a b).re)
        [(uv_idx (-(1/2) : ℝ) (-(1/2)) (1/2) 1).1] [(uv_idx (-(1/2) : ℝ) (-(1/2)) (1/2) 1).2]).getD 0 0 : ℝ) : ℂ) +
      Complex.I * (((int_bilin_MT (fun a b => (Fourier_shift_static (fun _ _ => (1 : ℂ)) 0 0 1 1 2 a b).im)
        [(uv_idx (-(1/2) : ℝ) (-(1/2)) (1/2) 1).1] [(uv_idx (-(1/2) : ℝ) (-(1/2)) (1/2) 1).2]).getD 0 0 : ℝ) : ℂ) =
    Fourier_shift_array (-(1/2)) (-(1/2))
      ((((int_bilin_MT (fun a b => ((fun _ _ => (1 : ℂ)) a b).re)
          [(uv_idx (-(1/2) : ℝ) (-(1/2)) (1/2) 1).1] [(uv_idx (-(1/2) : ℝ) (-(1/2)) (1/2) 1).2]).getD 0 0 : ℝ) : ℂ) +
        Complex.I * (((int_bilin_MT (fun a b => ((fun _ _ => (1 : ℂ)) a b).im)
          [(uv_idx (-(1/2) : ℝ) (-(1/2)) (1/2) 1).1] [(uv_idx (-(1/2) : ℝ) (-(1/2)) (1/2) 1).2]).getD 0 0 : ℝ) : ℂ))
      0 0 := by
  apply shift_forms_consistent (fun _ _ => (1 : ℂ)) 0 0 1 1 2 0 0
    (-(1/2)) (-(1/2)) (1/2) 1
  · norm_num
  · norm_num
  · norm_num
  · norm_num
  · norm_num
  · norm_num
  · norm_num

/-! ### Claim C2 -/

/-- Half of an even natural number, as a real number, equals its integer
half. -/
theorem even_half_real (N : ℕ) (h : Even N) : ((N : ℝ)) / 2 = ((N / 2 : ℕ) : ℝ) := by
  obtain ⟨m, hm⟩ := h
  subst hm
  have : (m + m) / 2 = m := by omega
  rw [this]
  push_cast
  ring


/-- Claim C2 (counterexample): profile `[1, 1, 1]`, `Rmin = 0`, `dR = 1`,
`8×8` image, `dxy = 1`, `inc = Dx = Dy = 0`, pixel `(4, 2)`.  The deprojected
radius there is exactly the truncation radius `Rmin + (n-1)*dR = 2`, the
reference sweep stores `0`, but `sweep_ref` stores `1` (scipy's `interp1d`
treats the last grid node as in range), so the two sweeps disagree there and
the vectorized one is not `0` at a pixel at the truncation radius. -/
theorem sweep_truncation_mismatch :
    Real.sqrt (((((8 / 2 : ℕ) : ℤ) - 2 : ℤ) * (1 : ℝ) / Real.cos (0 / 180 * Real.pi)) ^ 2 +
        ((((8 / 2 : ℕ) : ℤ) - 4 : ℤ) * (1 : ℝ)) ^ 2) =
      0 + ((([1, 1, 1] : List ℝ).length : ℤ) - 1) * 1 ∧
    g_sweep_prototype [1, 1, 1] 0 1 8 8 1 0 4 2 = 0 ∧
    sweep_ref [1, 1, 1] 0 1 8 8 1 0 0 0 4 2 = 1 := by
  have hsqrt : Real.sqrt 4 = 2 := by
    rw [show (4 : ℝ) = 2 ^ 2 by norm_num, Real.sqrt_sq (by norm_num : (0 : ℝ) ≤ 2)]
  refine ⟨?_, ?_, ?_⟩
  · norm_num [hsqrt]
  · rw [g_sweep_prototype]
    norm_num [hsqrt]
  · rw [sweep_ref]
    norm_num [hsqrt, interpZero, interpSeg, npGet]
    rfl

set_option maxHeartbeats 2000000 in
/-- Claim C2 (amended): for every radial profile (`n ≥ 2`, `0 < dR`,
`0 ≤ Rmin ≤ dxy`, `0 < dxy`), every even square image, inclination with
`cos ≠ 0`, zero mesh offsets, and every in-image pixel `(r, c)` with
deprojected radius `ρ` and truncation radius `Rmax = Rmin + (n-1)*dR`: the
reference and vectorized sweeps agree exactly (in exact real arithmetic)
whenever `ρ ≠ Rmax`; the reference is `0` for every `ρ ≥ Rmax`; the
vectorized sweep is `0` for `ρ > Rmax` but equals `I[n-1]` (not necessarily
`0`) at `ρ = Rmax`, where the reference already truncates to `0`. -/
theorem sweep_equiv (I : List ℝ) (Rmin dR : ℝ) (N : ℕ) (dxy inc : ℝ)
    (r c : ℤ) (ρ Rmax : ℝ)
    (hN : Even N)
    (hr0 : 0 ≤ r) (hrN : r < (N : ℤ)) (hc0 : 0 ≤ c) (hcN : c < (N : ℤ))
    (hdxy : 0 < dxy) (hRmin0 : 0 ≤ Rmin) (hRd : Rmin ≤ dxy) (hdR : 0 < dR)
    (hlen : 2 ≤ I.length)
    (hic : Real.cos (inc / 180 * Real.pi) ≠ 0)
    (hρ : ρ = Real.sqrt
      (((((N / 2 : ℕ) : ℤ) - c : ℤ) * dxy / Real.cos (inc / 180 * Real.pi)) ^ 2 +
        ((((N / 2 : ℕ) : ℤ) - r : ℤ) * dxy) ^ 2))
    (hRmax : Rmax = Rmin + ((I.length : ℤ) - 1) * dR) :
    (ρ ≠ Rmax →
      g_sweep_prototype I Rmin dR N N dxy inc r c =
        sweep_ref I Rmin dR N N dxy inc 0 0 r c) ∧
    (Rmax ≤ ρ → g_sweep_prototype I Rmin dR N N dxy inc r c = 0) ∧
    (Rmax < ρ → sweep_ref I Rmin dR N N dxy inc 0 0 r c = 0) ∧
    (ρ = Rmax →
      sweep_ref I Rmin dR N N dxy inc 0 0 r c = npGet I ((I.length : ℤ) - 1)) := by
  have hN2 : (N : ℤ) = 2 * ((N / 2 : ℕ) : ℤ) := by
    obtain ⟨m, hm⟩ := hN
    have h2 : (m + m) / 2 = m := by omega
    subst hm
    rw [h2]
    push_cast
    ring
  have hn2 : (2 : ℤ) ≤ (I.length : ℤ) := by exact_mod_cast hlen
  have hn2R : (2 : ℝ) ≤ ((I.length : ℤ) : ℝ) := by exact_mod_cast hlen
  have hcI1 : (1 : ℤ) ≤ ((N / 2 : ℕ) : ℤ) := by omega
  -- the radius expression inside sweep_ref equals ρ
  have hsweep_rad : Real.sqrt
      (((((N : ℝ) / 2 - (c : ℝ)) * dxy - 0 * dxy) / Real.cos (inc / 180 * Real.pi)) ^ 2 +
        (((N : ℝ) / 2 - (r : ℝ)) * dxy - 0 * dxy) ^ 2) = ρ := by
    rw [hρ]
    congr 1
    rw [even_half_real N hN]
    generalize (N / 2 : ℕ) = M
    push_cast
    ring
  -- lower bounds on ρ
  have hicsq : Real.cos (inc / 180 * Real.pi) ^ 2 ≤ 1 := Real.cos_sq_le_one _
  have hicpos : 0 < Real.cos (inc / 180 * Real.pi) ^ 2 := by positivity
  have hρx : |((((N / 2 : ℕ) : ℤ) - c : ℤ) : ℝ)| * dxy ≤ ρ := by
    rw [hρ]
    have hA : (((((N / 2 : ℕ) : ℤ) - c : ℤ) : ℝ) * dxy) ^ 2 ≤
        (((((N / 2 : ℕ) : ℤ) - c : ℤ) : ℝ) * dxy / Real.cos (inc / 180 * Real.pi)) ^ 2 := by
      rw [div_pow]
      have h1 : (((((N / 2 : ℕ) : ℤ) - c : ℤ) : ℝ) * dxy) ^ 2 / 1 ≤
          (((((N / 2 : ℕ) : ℤ) - c : ℤ) : ℝ) * dxy) ^ 2 / Real.cos (inc / 180 * Real.pi) ^ 2 :=
        div_le_div_of_nonneg_left (sq_nonneg _) hicpos hicsq
      simpa using h1
    have h1 : (((((N / 2 : ℕ) : ℤ) - c : ℤ) : ℝ) * dxy) ^ 2 ≤
        (((((N / 2 : ℕ) : ℤ) - c : ℤ) : ℝ) * dxy / Real.cos (inc / 180 * Real.pi)) ^ 2 +
          (((((N / 2 : ℕ) : ℤ) - r : ℤ) : ℝ) * dxy) ^ 2 := by
      have := sq_nonneg (((((N / 2 : ℕ) : ℤ) - r : ℤ) : ℝ) * dxy)
      linarith
    calc |((((N / 2 : ℕ) : ℤ) - c : ℤ) : ℝ)| * dxy
        = |((((N / 2 : ℕ) : ℤ) - c : ℤ) : ℝ) * dxy| := by
          rw [abs_mul, abs_of_pos hdxy]
      _ = Real.sqrt (((((( N / 2 : ℕ) : ℤ) - c : ℤ) : ℝ) * dxy) ^ 2) :=
          (Real.sqrt_sq_eq_abs _).symm
      _ ≤ _ := Real.sqrt_le_sqrt h1
  have hρy : |((((N / 2 : ℕ) : ℤ) - r : ℤ) : ℝ)| * dxy ≤ ρ := by
    rw [hρ]
    have h1 : (((((N / 2 : ℕ) : ℤ) - r : ℤ) : ℝ) * dxy) ^ 2 ≤
        (((((N / 2 : ℕ) : ℤ) - c : ℤ) : ℝ) * dxy / Real.cos (inc / 180 * Real.pi)) ^ 2 +
          (((((N / 2 : ℕ) : ℤ) - r : ℤ) : ℝ) * dxy) ^ 2 := by
      have := sq_nonneg (((((N / 2 : ℕ) : ℤ) - c : ℤ) : ℝ) * dxy / Real.cos (inc / 180 * Real.pi))
      linarith
    calc |((((N / 2 : ℕ) : ℤ) - r : ℤ) : ℝ)| * dxy
        = |((((N / 2 : ℕ) : ℤ) - r : ℤ) : ℝ) * dxy| := by
          rw [abs_mul, abs_of_pos hdxy]
      _ = Real.sqrt (((((( N / 2 : ℕ) : ℤ) - r : ℤ) : ℝ) * dxy) ^ 2) :=
          (Real.sqrt_sq_eq_abs _).symm
      _ ≤ _ := Real.sqrt_le_sqrt h1
  have hρ0 : 0 ≤ ρ := by rw [hρ]; exact Real.sqrt_nonneg _
  by_cases hcen : r = ((N / 2 : ℕ) : ℤ) ∧ c = ((N / 2 : ℕ) : ℤ)
  · -- center pixel
    obtain ⟨hr, hc⟩ := hcen
    subst hr hc
    have hρzero : ρ = 0 := by
      rw [hρ]
      norm_num
    have hRmaxpos : 0 < Rmax := by
      rw [hRmax]
      nlinarith
    refine ⟨?_, ?_, ?_, ?_⟩
    · intro _
      rw [sweep_ref, if_pos ⟨rfl, rfl⟩]
      by_cases hR0 : Rmin = 0
      · -- Rmin = 0 : center handled by the generic loop on the g side
        subst hR0
        rw [g_sweep_prototype, if_neg (fun h => h.2.2 rfl), if_pos ?hwin]
        case hwin =>
          have hceil : (1 : ℤ) ≤ ⌈((0 : ℝ) + ((I.length : ℤ) : ℝ) * dR) / dxy⌉ := by
            have hpos : (0 : ℝ) < ((0 : ℝ) + ((I.length : ℤ) : ℝ) * dR) / dxy := by
              apply div_pos
              · nlinarith
              · exact hdxy
            exact Int.ceil_pos.mpr hpos
          refine ⟨?_, ?_, ?_, ?_⟩ <;> omega
        rw [interpSeg_at_zero I 0 dR hlen hdR le_rfl]
        norm_num
        intro hcontra
        exact absurd hlen (by omega)
      · rw [g_sweep_prototype, if_pos ⟨rfl, rfl, hR0⟩,
          interpSeg_at_zero I Rmin dR hlen hdR hRmin0]
    · intro h
      rw [hρzero] at h
      linarith
    · intro h
      rw [hρzero] at h
      linarith
    · intro h
      rw [hρzero] at h
      linarith
  · -- off-center pixel
    have hne : ((N / 2 : ℕ) : ℤ) - r ≠ 0 ∨ ((N / 2 : ℕ) : ℤ) - c ≠ 0 := by
      by_contra hcontra
      push_neg at hcontra
      exact hcen ⟨by omega, by omega⟩
    have hdxyρ : dxy ≤ ρ := by
      rcases hne with h | h
      · have hpos : 0 < |((N / 2 : ℕ) : ℤ) - r| := abs_pos.mpr h
        have h1 : (1 : ℤ) ≤ |((N / 2 : ℕ) : ℤ) - r| := by omega
        have h2 : (1 : ℝ) ≤ |((((N / 2 : ℕ) : ℤ) - r : ℤ) : ℝ)| := by
          rw [← Int.cast_abs]
          exact_mod_cast h1
        nlinarith
      · have hpos : 0 < |((N / 2 : ℕ) : ℤ) - c| := abs_pos.mpr h
        have h1 : (1 : ℤ) ≤ |((N / 2 : ℕ) : ℤ) - c| := by omega
        have h2 : (1 : ℝ) ≤ |((((N / 2 : ℕ) : ℤ) - c : ℤ) : ℝ)| := by
          rw [← Int.cast_abs]
          exact_mod_cast h1
        nlinarith
    have hρRmin : Rmin ≤ ρ := le_trans hRd hdxyρ
    have hsval : sweep_ref I Rmin dR N N dxy inc 0 0 r c = interpZero Rmin dR I ρ := by
      rw [sweep_ref, if_neg hcen, hsweep_rad]
    have hfirst : ¬(r = ((N / 2 : ℕ) : ℤ) ∧ c = ((N / 2 : ℕ) : ℤ) ∧ Rmin ≠ 0) :=
      fun h => hcen ⟨h.1, h.2.1⟩
    by_cases hwin : ((N / 2 : ℕ) : ℤ) - min ⌈(Rmin + ((I.length : ℤ) : ℝ) * dR) / dxy⌉ ((N / 2 : ℕ) : ℤ) ≤ r ∧ r < ((N / 2 : ℕ) : ℤ) + min ⌈(Rmin + ((I.length : ℤ) : ℝ) * dR) / dxy⌉ ((N / 2 : ℕ) : ℤ) ∧
        ((N / 2 : ℕ) : ℤ) - min ⌈(Rmin + ((I.length : ℤ) : ℝ) * dR) / dxy⌉ ((N / 2 : ℕ) : ℤ) ≤ c ∧ c < ((N / 2 : ℕ) : ℤ) + min ⌈(Rmin + ((I.length : ℤ) : ℝ) * dR) / dxy⌉ ((N / 2 : ℕ) : ℤ)
    · -- pixel inside the computation window
      have hgval : g_sweep_prototype I Rmin dR N N dxy inc r c =
          if ((I.length : ℤ)) - 1 ≤ ⌊(ρ - Rmin) / dR⌋ then 0
          else npGet I ⌊(ρ - Rmin) / dR⌋ +
            (ρ - (⌊(ρ - Rmin) / dR⌋ : ℝ) * dR - Rmin) *
              (npGet I (⌊(ρ - Rmin) / dR⌋ + 1) - npGet I ⌊(ρ - Rmin) / dR⌋) / dR := by
        rw [g_sweep_prototype, if_neg hfirst, if_pos hwin]
        dsimp only
        rw [← hρ]
      by_cases htr : ((I.length : ℤ)) - 1 ≤ ⌊(ρ - Rmin) / dR⌋
      · -- truncated bin: deprojected radius at or beyond the outer edge
        have hfl : (I.length : ℝ) - 1 ≤ (ρ - Rmin) / dR := by
          have h1 := Int.le_floor.mp htr
          push_cast at h1
          linarith
        have h2 : ((I.length : ℝ) - 1) * dR ≤ ρ - Rmin := (le_div_iff₀ hdR).mp hfl
        have hRmaxρ : Rmax ≤ ρ := by
          rw [hRmax]
          push_cast
          linarith
        refine ⟨?_, ?_, ?_, ?_⟩
        · intro hne
          have hlt : Rmax < ρ := lt_of_le_of_ne hRmaxρ (fun h => hne h.symm)
          have hlt2 : Rmin + (((I.length : ℤ) : ℝ) - 1) * dR < ρ := by
            rw [hRmax] at hlt
            exact hlt
          rw [hgval, if_pos htr, hsval, interpZero, if_pos (Or.inr hlt2)]
        · intro _
          rw [hgval, if_pos htr]
        · intro hlt
          have hlt2 : Rmin + (((I.length : ℤ) : ℝ) - 1) * dR < ρ := by
            rw [hRmax] at hlt
            exact hlt
          rw [hsval, interpZero, if_pos (Or.inr hlt2)]
        · intro heq
          have hle2 : ¬(Rmin + (((I.length : ℤ) : ℝ) - 1) * dR < ρ) := by
            rw [heq, hRmax]
            exact lt_irrefl _
          rw [hsval, interpZero, if_neg (not_or.mpr ⟨not_lt.mpr hρRmin, hle2⟩)]
          have hz : (ρ - Rmin) / dR = (((I.length : ℤ) - 1 : ℤ) : ℝ) := by
            rw [heq, hRmax, add_sub_cancel_left,
              mul_div_cancel_right₀ _ (ne_of_gt hdR)]
            push_cast
            ring
          have hfloor_eq : ⌊(ρ - Rmin) / dR⌋ = (I.length : ℤ) - 1 := by
            rw [hz, Int.floor_intCast]
          rw [interpSeg]
          rw [hfloor_eq]
          have hk : max 0 (min ((I.length : ℤ) - 1) ((I.length : ℤ) - 2)) =
              (I.length : ℤ) - 2 := by omega
          rw [hk]
          have hidx : (I.length : ℤ) - 2 + 1 = (I.length : ℤ) - 1 := by ring
          rw [hidx]
          have hcoef : ρ - (Rmin + (((I.length : ℤ) - 2 : ℤ) : ℝ) * dR) = dR := by
            rw [heq, hRmax]
            push_cast
            ring
          rw [hcoef, mul_div_cancel_left₀ _ (ne_of_gt hdR)]
          ring
      · -- interior bin: both variants interpolate the same profile segment
        have htr2 : ⌊(ρ - Rmin) / dR⌋ < (I.length : ℤ) - 1 := by omega
        have hiR0 : 0 ≤ ⌊(ρ - Rmin) / dR⌋ :=
          Int.floor_nonneg.mpr (div_nonneg (by linarith) (le_of_lt hdR))
        have hflup : (ρ - Rmin) / dR < (I.length : ℝ) - 1 := by
          have h1 := Int.lt_floor_add_one ((ρ - Rmin) / dR)
          have h5 : ⌊(ρ - Rmin) / dR⌋ + 1 ≤ (I.length : ℤ) - 1 := by omega
          have h3 : ((⌊(ρ - Rmin) / dR⌋ : ℤ) : ℝ) + 1 ≤ (I.length : ℝ) - 1 := by
            exact_mod_cast h5
          linarith
        have hρlt : ρ < Rmax := by
          have h4 := (div_lt_iff₀ hdR).mp hflup
          rw [hRmax]
          push_cast
          linarith
        have hlt3 : ¬(Rmin + (((I.length : ℤ) : ℝ) - 1) * dR < ρ) := by
          have h := hρlt
          rw [hRmax] at h
          exact not_lt.mpr (le_of_lt h)
        refine ⟨?_, ?_, ?_, ?_⟩
        · intro _
          rw [hgval, if_neg htr, hsval, interpZero,
            if_neg (not_or.mpr ⟨not_lt.mpr hρRmin, hlt3⟩), interpSeg]
          have hk : max 0 (min ⌊(ρ - Rmin) / dR⌋ ((I.length : ℤ) - 2)) =
              ⌊(ρ - Rmin) / dR⌋ := by omega
          rw [hk]
          ring
        · intro h
          exact absurd h (not_le.mpr hρlt)
        · intro h
          exact absurd h (not_lt.mpr (le_of_lt hρlt))
        · intro h
          exact absurd h (ne_of_lt hρlt)
    · -- pixel outside the computation window
      have hgval : g_sweep_prototype I Rmin dR N N dxy inc r c = 0 := by
        rw [g_sweep_prototype, if_neg hfirst, if_neg hwin]
      have hceil1 : (0 : ℤ) < ⌈(Rmin + ((I.length : ℤ) : ℝ) * dR) / dxy⌉ := by
        apply Int.ceil_pos.mpr
        apply div_pos
        · have hpos : (0 : ℝ) < ((I.length : ℤ) : ℝ) * dR :=
            mul_pos (lt_of_lt_of_le (by norm_num : (0 : ℝ) < 2) hn2R) hdR
          linarith
        · exact hdxy
      have hCd : Rmin + ((I.length : ℤ) : ℝ) * dR ≤ ((⌈(Rmin + ((I.length : ℤ) : ℝ) * dR) / dxy⌉ : ℤ) : ℝ) * dxy :=
        (div_le_iff₀ hdxy).mp (Int.le_ceil _)
      have h4 : r < ((N / 2 : ℕ) : ℤ) - min ⌈(Rmin + ((I.length : ℤ) : ℝ) * dR) / dxy⌉ ((N / 2 : ℕ) : ℤ) ∨ ((N / 2 : ℕ) : ℤ) + min ⌈(Rmin + ((I.length : ℤ) : ℝ) * dR) / dxy⌉ ((N / 2 : ℕ) : ℤ) ≤ r ∨
          c < ((N / 2 : ℕ) : ℤ) - min ⌈(Rmin + ((I.length : ℤ) : ℝ) * dR) / dxy⌉ ((N / 2 : ℕ) : ℤ) ∨ ((N / 2 : ℕ) : ℤ) + min ⌈(Rmin + ((I.length : ℤ) : ℝ) * dR) / dxy⌉ ((N / 2 : ℕ) : ℤ) ≤ c := by
        by_contra hcon
        push_neg at hcon
        exact hwin ⟨by omega, by omega, by omega, by omega⟩
      have hρbig : Rmin + ((I.length : ℤ) : ℝ) * dR ≤ ρ := by
        rcases h4 with h | h | h | h
        · have hCr : ⌈(Rmin + ((I.length : ℤ) : ℝ) * dR) / dxy⌉ ≤ ((N / 2 : ℕ) : ℤ) - r := by omega
          have hCrR : ((⌈(Rmin + ((I.length : ℤ) : ℝ) * dR) / dxy⌉ : ℤ) : ℝ) ≤ |((((N / 2 : ℕ) : ℤ) - r : ℤ) : ℝ)| :=
            le_trans (by exact_mod_cast hCr) (le_abs_self _)
          calc Rmin + ((I.length : ℤ) : ℝ) * dR ≤ ((⌈(Rmin + ((I.length : ℤ) : ℝ) * dR) / dxy⌉ : ℤ) : ℝ) * dxy := hCd
            _ ≤ |((((N / 2 : ℕ) : ℤ) - r : ℤ) : ℝ)| * dxy :=
              mul_le_mul_of_nonneg_right hCrR (le_of_lt hdxy)
            _ ≤ ρ := hρy
        · have hCr : ⌈(Rmin + ((I.length : ℤ) : ℝ) * dR) / dxy⌉ ≤ r - ((N / 2 : ℕ) : ℤ) := by omega
          have hCrR : ((⌈(Rmin + ((I.length : ℤ) : ℝ) * dR) / dxy⌉ : ℤ) : ℝ) ≤ |((((N / 2 : ℕ) : ℤ) - r : ℤ) : ℝ)| := by
            refine le_trans (by exact_mod_cast hCr : ((⌈(Rmin + ((I.length : ℤ) : ℝ) * dR) / dxy⌉ : ℤ) : ℝ) ≤ ((r - ((N / 2 : ℕ) : ℤ) : ℤ) : ℝ)) ?_
            rw [show ((r - ((N / 2 : ℕ) : ℤ) : ℤ) : ℝ) = -((((N / 2 : ℕ) : ℤ) - r : ℤ) : ℝ) by push_cast; ring]
            exact neg_le_abs _
          calc Rmin + ((I.length : ℤ) : ℝ) * dR ≤ ((⌈(Rmin + ((I.length : ℤ) : ℝ) * dR) / dxy⌉ : ℤ) : ℝ) * dxy := hCd
            _ ≤ |((((N / 2 : ℕ) : ℤ) - r : ℤ) : ℝ)| * dxy :=
              mul_le_mul_of_nonneg_right hCrR (le_of_lt hdxy)
            _ ≤ ρ := hρy
        · have hCr : ⌈(Rmin + ((I.length : ℤ) : ℝ) * dR) / dxy⌉ ≤ ((N / 2 : ℕ) : ℤ) - c := by omega
          have hCrR : ((⌈(Rmin + ((I.length : ℤ) : ℝ) * dR) / dxy⌉ : ℤ) : ℝ) ≤ |((((N / 2 : ℕ) : ℤ) - c : ℤ) : ℝ)| :=
            le_trans (by exact_mod_cast hCr) (le_abs_self _)
          calc Rmin + ((I.length : ℤ) : ℝ) * dR ≤ ((⌈(Rmin + ((I.length : ℤ) : ℝ) * dR) / dxy⌉ : ℤ) : ℝ) * dxy := hCd
            _ ≤ |((((N / 2 : ℕ) : ℤ) - c : ℤ) : ℝ)| * dxy :=
              mul_le_mul_of_nonneg_right hCrR (le_of_lt hdxy)
            _ ≤ ρ := hρx
        · have hCr : ⌈(Rmin + ((I.length : ℤ) : ℝ) * dR) / dxy⌉ ≤ c - ((N / 2 : ℕ) : ℤ) := by omega
          have hCrR : ((⌈(Rmin + ((I.length : ℤ) : ℝ) * dR) / dxy⌉ : ℤ) : ℝ) ≤ |((((N / 2 : ℕ) : ℤ) - c : ℤ) : ℝ)| := by
            refine le_trans (by exact_mod_cast hCr : ((⌈(Rmin + ((I.length : ℤ) : ℝ) * dR) / dxy⌉ : ℤ) : ℝ) ≤ ((c - ((N / 2 : ℕ) : ℤ) : ℤ) : ℝ)) ?_
            rw [show ((c - ((N / 2 : ℕ) : ℤ) : ℤ) : ℝ) = -((((N / 2 : ℕ) : ℤ) - c : ℤ) : ℝ) by push_cast; ring]
            exact neg_le_abs _
          calc Rmin + ((I.length : ℤ) : ℝ) * dR ≤ ((⌈(Rmin + ((I.length : ℤ) : ℝ) * dR) / dxy⌉ : ℤ) : ℝ) * dxy := hCd
            _ ≤ |((((N / 2 : ℕ) : ℤ) - c : ℤ) : ℝ)| * dxy :=
              mul_le_mul_of_nonneg_right hCrR (le_of_lt hdxy)
            _ ≤ ρ := hρx
      have hρgtRmax : Rmax < ρ := by
        rw [hRmax]
        push_cast
        push_cast at hρbig
        linarith
      have hlt4 : Rmin + (((I.length : ℤ) : ℝ) - 1) * dR < ρ := by
        have h := hρgtRmax
        rw [hRmax] at h
        exact h
      refine ⟨?_, ?_, ?_, ?_⟩
      · intro _
        rw [hgval, hsval, interpZero, if_pos (Or.inr hlt4)]
      · intro _
        exact hgval
      · intro _
        rw [hsval, interpZero, if_pos (Or.inr hlt4)]
      · intro h
        exact absurd h (ne_of_gt hρgtRmax)

/-- Witness for `sweep_equiv`: profile `[1, 1, 1]`, `Rmin = 0`, `dR = 1`,
`8×8` image, `dxy = 1`, `inc = 0`, pixel `(4, 3)` (interior of the support),
where both sweeps agree. -/
theorem sweep_equiv_witness :
    g_sweep_prototype [1, 1, 1] 0 1 8 8 1 0 4 3 =
      sweep_ref [1, 1, 1] 0 1 8 8 1 0 0 0 4 3 := by
  have hρval : (1 : ℝ) = Real.sqrt
      (((((8 / 2 : ℕ) : ℤ) - 3 : ℤ) * 1 / Real.cos (0 / 180 * Real.pi)) ^ 2 +
        ((((8 / 2 : ℕ) : ℤ) - 4 : ℤ) * 1) ^ 2) := by
    norm_num [Real.sqrt_one]
  have hRmaxval : (2 : ℝ) = 0 + ((([1, 1, 1] : List ℝ).length : ℤ) - 1) * 1 := by
    norm_num
  exact (sweep_equiv [1, 1, 1] 0 1 8 1 0 4 3 1 2 ⟨4, rfl⟩
    (by norm_num) (by norm_num) (by norm_num) (by norm_num) (by norm_num)
    (by norm_num) (by norm_num) (by norm_num) (by norm_num) (by norm_num)
    hρval hRmaxval).1 (by norm_num)

end Galario
